import Mathlib

/-!
Shallow embedding of `STM32BootManager.h` (class `STM32BootManager`).

The C++ class is a stateful orchestrator over a table of hardware
function pointers (`BootOperations`).  We embed it as follows:

* the three data members `m_operations` (modelled as a `Bool`: whether a
  capability table is bound), `m_was_erased` and `m_write_pointer`
  (a `uint32_t`, modelled as `Nat` reduced `% 2 ^ 32` on update) form
  `MgrState`;
* every call into the hardware capability table is recorded as an
  `HwEvent`; the boolean results the hardware would return are passed in
  as explicit parameters (`hwErase`, `hwWrite`), so a method becomes a
  pure function `state → inputs → result × state × trace`;
* flash memory is a byte function `Nat → Nat`;
* the `for(uint16_t i = 0; i < size/4; ++i)` copy loop of `read` is
  embedded with explicit fuel (`readLoopAux`), because with a 16-bit
  counter it does not terminate for every `size`; `read` returns `none`
  when the given fuel is not enough, and a genuinely diverging loop
  returns `none` for every fuel.
-/

namespace STM32Boot

/-- Source constant `START_ADDRESS` (0x08006000). -/
def START_ADDRESS : Nat := 0x08006000

/-- Source constant `END_ADDRESS` (0x08020000). -/
def END_ADDRESS : Nat := 0x08020000

/-- Source constant `PAGE_SIZE` (0x800). -/
def PAGE_SIZE : Nat := 0x800

/-- Source constant `METADATA_SIZE`: the last 4 bytes are excluded from CRC. -/
def METADATA_SIZE : Nat := 4

/-- One call into the hardware capability table (`BootOperations`). -/
inductive HwEvent where
  | unlock
  | lock
  | eraseCall (result : Bool)
  | writeCall (address : Nat) (size : Nat) (result : Bool)
  | deinitPeripherals
  | deinitSystick
  | sysJump (entry : Nat)
deriving DecidableEq

/-- The data members of `STM32BootManager`:  `m_operations` abstracted to
whether the pointer is non-null, `m_was_erased`, and the `uint32_t`
cursor `m_write_pointer`. -/
structure MgrState where
  m_operations : Bool
  m_was_erased : Bool
  m_write_pointer : Nat
deriving DecidableEq

/-- The state built by the constructor: erase flag false, cursor at
`START_ADDRESS`; `ops` says whether a capability table is bound. -/
def freshMgr (ops : Bool) : MgrState :=
  ⟨ops, false, START_ADDRESS⟩

/-- Embedding of `STM32BootManager::erase_app`.  `hwErase` is the result
the capability `erase_app` primitive would return. -/
def erase_app (s : MgrState) (hwErase : Bool) : Bool × MgrState × List HwEvent :=
  if s.m_operations then
    (hwErase,
      { s with m_was_erased := if hwErase then true else s.m_was_erased },
      [HwEvent.unlock, HwEvent.eraseCall hwErase, HwEvent.lock])
  else (false, s, [])

/-- Embedding of `STM32BootManager::write`.  `hwWrite` is the result the
capability `write` primitive would return; the data buffer itself is
opaque, the event records address and size. -/
def write (s : MgrState) (address size : Nat) (hwErase hwWrite : Bool) :
    Bool × MgrState × List HwEvent :=
  if s.m_operations then
    if s.m_was_erased then
      (hwWrite, s,
        [HwEvent.unlock, HwEvent.writeCall address size hwWrite, HwEvent.lock])
    else
      let r := erase_app s hwErase
      if r.1 then
        (hwWrite, r.2.1,
          r.2.2 ++ [HwEvent.unlock, HwEvent.writeCall address size hwWrite, HwEvent.lock])
      else (false, r.2.1, r.2.2)
  else (false, s, [])

/-- Embedding of `STM32BootManager::write_continously` (code spelling).
Mirrors the source: an own erase check first, then delegation to
`write` at the cursor, then `m_write_pointer += size` (32-bit wrap) on
success only. -/
def write_continously (s : MgrState) (size : Nat) (hwErase hwWrite : Bool) :
    Bool × MgrState × List HwEvent :=
  let pre := if s.m_was_erased then (true, s, ([] : List HwEvent)) else erase_app s hwErase
  if pre.1 then
    let r := write pre.2.1 pre.2.1.m_write_pointer size hwErase hwWrite
    if r.1 then
      (r.1, { r.2.1 with m_write_pointer := (r.2.1.m_write_pointer + size) % 2 ^ 32 },
        pre.2.2 ++ r.2.2)
    else (r.1, r.2.1, pre.2.2 ++ r.2.2)
  else (false, pre.2.1, pre.2.2)

/-- Little-endian 32-bit word read `*((uint32_t*)a)` from byte memory. -/
def word32 (mem : Nat → Nat) (a : Nat) : Nat :=
  mem a + 2 ^ 8 * mem (a + 1) + 2 ^ 16 * mem (a + 2) + 2 ^ 24 * mem (a + 3)

/-- The copy loop of `STM32BootManager::read`:
`for(uint16_t i = 0; i < size/4; ++i) dst[i] = src[i]` at word width.
`i` is the current value of the 16-bit counter (hence the increment
`(i + 1) % 65536`), `acc` the words copied so far, `fuel` explicit fuel:
`none` means the loop did not finish within `fuel` iterations. -/
def readLoopAux (size : Nat) (mem : Nat → Nat) (address : Nat) :
    Nat → Nat → List Nat → Option (List Nat)
  | 0, _, _ => none
  | fuel + 1, i, acc =>
    if i < size / 4 then
      readLoopAux size mem address fuel ((i + 1) % 65536)
        (acc ++ [word32 mem (address + 4 * i)])
    else some acc

/-- Embedding of `STM32BootManager::read`: result flag, hardware trace and
the list of words copied into `dst`; `none` when the loop does not
finish within `fuel` iterations. -/
def read (s : MgrState) (address size : Nat) (mem : Nat → Nat) (fuel : Nat) :
    Option (Bool × List HwEvent × List Nat) :=
  if s.m_operations then
    match readLoopAux size mem address fuel 0 [] with
    | none => none
    | some ws => some (true, [HwEvent.unlock, HwEvent.lock], ws)
  else some (false, [], [])

/-- A fully concrete non-returning `read` call: with a capability bound,
on all-zero memory, at address `START_ADDRESS`, no amount of fuel makes
the call return. -/
def read_never_returns (size : Nat) : Prop :=
  ∀ fuel, read (freshMgr true) START_ADDRESS size (fun _ => 0) fuel = none

/-- One iteration of the table-building inner loop of
`STM32BootManager::calculate_crc` (shift right, conditional xor with the
polynomial 0xEDB88320). -/
def crc32_round (rem : Nat) : Nat :=
  if rem &&& 1 = 1 then (rem >>> 1) ^^^ 0xEDB88320 else rem >>> 1

/-- Entry `table[i]` of the lazily built CRC table: eight rounds applied
to `i`. -/
def crc32_table_entry (i : Nat) : Nat :=
  crc32_round^[8] i

/-- The per-byte fold `crc = table[(crc ^ *dp) & 0xFF] ^ (crc >> 8)`. -/
def crc32_update (crc b : Nat) : Nat :=
  crc32_table_entry ((crc ^^^ b) &&& 0xFF) ^^^ (crc >>> 8)

/-- Bitwise complement at 32 bits, as applied to the `uint32_t` accumulator. -/
def comp32 (x : Nat) : Nat :=
  x ^^^ 0xFFFFFFFF

/-- The CRC32 computation of `calculate_crc` as a function of the byte
sequence it scans: seed `~0`, per-byte fold, final complement. -/
def crc32_bytes (bs : List Nat) : Nat :=
  comp32 (bs.foldl crc32_update (comp32 0))

/-- Number of bytes scanned by `calculate_crc`:
`(END_ADDRESS - START_ADDRESS) - METADATA_SIZE`. -/
def crcLen : Nat :=
  (END_ADDRESS - START_ADDRESS) - METADATA_SIZE

/-- Embedding of `STM32BootManager::calculate_crc`: returns 0 with no
hardware call when no capability is bound, otherwise the CRC of the
bytes in `[START_ADDRESS, END_ADDRESS - METADATA_SIZE)` bracketed by
unlock/lock. -/
def calculate_crc (s : MgrState) (mem : Nat → Nat) : Nat × List HwEvent :=
  if s.m_operations then
    (crc32_bytes ((List.range crcLen).map fun i => mem (START_ADDRESS + i)),
      [HwEvent.unlock, HwEvent.lock])
  else (0, [])

/-- Embedding of `STM32BootManager::jump_to_app`: the non-returning
control transfer is modelled as the terminal `sysJump` event, carrying
the entry address read as the second 32-bit word of the region
(address `START_ADDRESS + 4`). -/
def jump_to_app (s : MgrState) (mem : Nat → Nat) : List HwEvent :=
  if s.m_operations then
    [HwEvent.deinitPeripherals, HwEvent.deinitSystick,
      HwEvent.sysJump (word32 mem (START_ADDRESS + 4))]
  else []

/-- The addresses handed to the capability `write` primitive, in order. -/
def writeAddrs : List HwEvent → List Nat
  | [] => []
  | HwEvent.writeCall a _ _ :: rest => a :: writeAddrs rest
  | _ :: rest => writeAddrs rest

/-- Run a sequence of `write_continously` calls whose erase and write
primitives all succeed, collecting the hardware trace. -/
def runCont : MgrState → List Nat → MgrState × List HwEvent
  | s, [] => (s, [])
  | s, sz :: rest =>
    let r := write_continously s sz true true
    let rr := runCont r.2.1 rest
    (rr.1, r.2.2 ++ rr.2)

/-- A call into the manager's writing API, together with the results the
hardware primitives would return. -/
inductive Cmd where
  | wr (address size : Nat) (hwErase hwWrite : Bool)
  | wc (size : Nat) (hwErase hwWrite : Bool)
deriving DecidableEq

/-- Execute one `Cmd` against the manager. -/
def execCmd (s : MgrState) : Cmd → Bool × MgrState × List HwEvent
  | Cmd.wr a sz e w => write s a sz e w
  | Cmd.wc sz e w => write_continously s sz e w

/-- Run a list of write commands, concatenating the hardware traces. -/
def runCmds : MgrState → List Cmd → MgrState × List HwEvent
  | s, [] => (s, [])
  | s, c :: rest =>
    let r := execCmd s c
    let rr := runCmds r.2.1 rest
    (rr.1, r.2.2 ++ rr.2)

/-- Event is an invocation of the capability erase primitive. -/
def isErase : HwEvent → Bool
  | HwEvent.eraseCall _ => true
  | _ => false

/-- Event is a successful invocation of the capability erase primitive. -/
def isEraseSucc : HwEvent → Bool
  | HwEvent.eraseCall true => true
  | _ => false

/-- Number of erase invocations in a trace. -/
def eraseCount (tr : List HwEvent) : Nat :=
  tr.countP isErase

/-- Number of successful erase invocations in a trace. -/
def eraseSuccCount (tr : List HwEvent) : Nat :=
  tr.countP isEraseSucc

/-- All-zero byte memory. -/
def memZero : Nat → Nat :=
  fun _ => 0

/-- Byte memory that differs from `memZero` exactly on the trailing
metadata tail `[END_ADDRESS - METADATA_SIZE, ...)`. -/
def memTail : Nat → Nat :=
  fun a => if END_ADDRESS - METADATA_SIZE ≤ a then 1 else 0

/-- True when no erase invocation occurs anywhere after a successful
erase invocation in the trace. -/
def noEraseAfterSuccess : List HwEvent → Bool
  | [] => true
  | HwEvent.eraseCall true :: rest => eraseCount rest == 0
  | _ :: rest => noEraseAfterSuccess rest

/-- Manager state reached by the first oversized `write_continously`
call of the overflow scenario. -/
def overflowMid : MgrState :=
  (write_continously (freshMgr true) 0x1B000 true true).2.1

set_option maxRecDepth 100000

theorem writeAddrs_append (t1 t2 : List HwEvent) :
    writeAddrs (t1 ++ t2) = writeAddrs t1 ++ writeAddrs t2 := by
  induction t1 with
  | nil => rfl
  | cons e rest ih => cases e <;> simp [writeAddrs, ih]

/-- C1: for a fresh manager with a capability bound, the first `write` or
`write_continously` call triggers erase before programming; a failed
erase makes the call return false with no capability write issued and
leaves the state (hence the erase flag) unchanged, so the next call
retries the erase; a successful erase sets the flag and is followed by
the capability write in the same call; with the flag set, `write` skips
erasing and returns exactly the capability write's result. -/
theorem C1_erase_before_write (a sz : Nat) (e w : Bool) :
    write (freshMgr true) a sz false w
        = (false, freshMgr true, [HwEvent.unlock, HwEvent.eraseCall false, HwEvent.lock])
    ∧ write_continously (freshMgr true) sz false w
        = (false, freshMgr true, [HwEvent.unlock, HwEvent.eraseCall false, HwEvent.lock])
    ∧ write (freshMgr true) a sz true w
        = (w, ⟨true, true, START_ADDRESS⟩,
            [HwEvent.unlock, HwEvent.eraseCall true, HwEvent.lock,
             HwEvent.unlock, HwEvent.writeCall a sz w, HwEvent.lock])
    ∧ (∀ s : MgrState, s.m_operations = true → s.m_was_erased = true →
        write s a sz e w
          = (w, s, [HwEvent.unlock, HwEvent.writeCall a sz w, HwEvent.lock])) := by
  refine ⟨?_, ?_, ?_, ?_⟩
  · simp [write, erase_app, freshMgr]
  · simp [write_continously, write, erase_app, freshMgr]
  · simp [write, erase_app, freshMgr]
  · intro s h1 h2
    simp [write, h1, h2]

theorem C1_erase_before_write_witness :
    write ⟨true, true, START_ADDRESS⟩ 0 4 true false
      = (false, (⟨true, true, START_ADDRESS⟩ : MgrState),
          [HwEvent.unlock, HwEvent.writeCall 0 4 false, HwEvent.lock]) :=
  (C1_erase_before_write 0 4 true false).2.2.2 ⟨true, true, START_ADDRESS⟩ rfl rfl

/-- C3: the CRC32 engine of `calculate_crc` (table from polynomial
0xEDB88320, all-ones seed, per-byte fold, final complement) applied to
the ASCII bytes of the string 123456789 yields the IEEE 802.3 check
value 0xCBF43926. -/
theorem C3_crc32_check_value :
    crc32_bytes [0x31, 0x32, 0x33, 0x34, 0x35, 0x36, 0x37, 0x38, 0x39] = 0xCBF43926 := by
  decide

/-- C5: with no capability bound, `read`, `write` and `write_continously`
return false, `calculate_crc` returns the sentinel 0 and `jump_to_app`
returns without jumping; none of them emits a hardware event or changes
the manager's state (the returned state is the input state itself). -/
theorem C5_no_capability_safe_failure (s : MgrState)
    (h : s.m_operations = false) (address size : Nat) (mem : Nat → Nat)
    (fuel : Nat) (e w : Bool) :
    read s address size mem fuel = some (false, [], [])
    ∧ write s address size e w = (false, s, [])
    ∧ write_continously s size e w = (false, s, [])
    ∧ calculate_crc s mem = (0, [])
    ∧ jump_to_app s mem = [] := by
  refine ⟨?_, ?_, ?_, ?_, ?_⟩
  · simp [read, h]
  · simp [write, h]
  · cases hw : s.m_was_erased <;> simp [write_continously, erase_app, write, h, hw]
  · simp [calculate_crc, h]
  · simp [jump_to_app, h]

theorem C5_no_capability_safe_failure_witness :
    read (freshMgr false) 0 4 memZero 5 = some (false, [], [])
    ∧ write (freshMgr false) 0 4 true true = (false, freshMgr false, [])
    ∧ write_continously (freshMgr false) 4 true true = (false, freshMgr false, [])
    ∧ calculate_crc (freshMgr false) memZero = (0, [])
    ∧ jump_to_app (freshMgr false) memZero = [] :=
  C5_no_capability_safe_failure (freshMgr false) rfl 0 4 memZero 5 true true

/-- C6: `write_continously` never checks the cursor against
`END_ADDRESS`: starting from a fresh manager, a single successful
oversized call (size 0x1B000) drives the cursor to 0x08021000, strictly
beyond `END_ADDRESS`, and the next successful call hands the capability
write an address at or beyond `END_ADDRESS`. -/
theorem C6_region_overflow :
    (write_continously (freshMgr true) 0x1B000 true true).1 = true
    ∧ END_ADDRESS < overflowMid.m_write_pointer
    ∧ (write_continously overflowMid 4 true true).1 = true
    ∧ writeAddrs (write_continously overflowMid 4 true true).2.2 = [0x08021000]
    ∧ END_ADDRESS ≤ 0x08021000 := by
  decide

/-- C7: with a capability bound, `jump_to_app` emits exactly one
`deinit_peripherals` call, then one `deinit_systick` call, then the
terminal control transfer to the entry address read as the second
32-bit word of the region (at `START_ADDRESS + 4`), unconditionally and
with no validity check on that address; the transfer is the last event,
modelling the non-returning jump. -/
theorem C7_jump_sequence (s : MgrState) (mem : Nat → Nat) (h : s.m_operations = true) :
    jump_to_app s mem
      = [HwEvent.deinitPeripherals, HwEvent.deinitSystick,
         HwEvent.sysJump (word32 mem (START_ADDRESS + 4))] := by
  simp [jump_to_app, h]

theorem C7_jump_sequence_witness :
    jump_to_app (freshMgr true) memZero
      = [HwEvent.deinitPeripherals, HwEvent.deinitSystick,
         HwEvent.sysJump (word32 memZero (START_ADDRESS + 4))] :=
  C7_jump_sequence (freshMgr true) memZero rfl

/-- C8 counterexample: two `write` calls on a fresh bound manager whose
erase primitive fails both times produce two automatic erase
invocations before any successful capability write (indeed before any
capability write at all), refuting the claim that erase is invoked
automatically at most once even when erases fail. -/
theorem C8_cex_two_auto_erase_calls :
    (runCmds (freshMgr true) [Cmd.wr 0 4 false true, Cmd.wr 0 4 false true]).2
        = [HwEvent.unlock, HwEvent.eraseCall false, HwEvent.lock,
           HwEvent.unlock, HwEvent.eraseCall false, HwEvent.lock]
    ∧ eraseCount
        (runCmds (freshMgr true) [Cmd.wr 0 4 false true, Cmd.wr 0 4 false true]).2 = 2 := by
  decide

theorem write_cursor_const (s : MgrState) (a sz : Nat) (e w : Bool) :
    (write s a sz e w).2.1.m_write_pointer = s.m_write_pointer := by
  by_cases h1 : s.m_operations <;> by_cases h2 : s.m_was_erased <;> cases e <;>
    simp [write, erase_app, h1, h2]

theorem wc_fail_cursor_const (s : MgrState) (sz : Nat) (e w : Bool)
    (hf : (write_continously s sz e w).1 = false) :
    (write_continously s sz e w).2.1.m_write_pointer = s.m_write_pointer := by
  by_cases h1 : s.m_operations <;> by_cases h2 : s.m_was_erased <;> cases e <;> cases w <;>
    simp_all [write_continously, write, erase_app]

theorem runCont_erased_addrs (sizes : List Nat) :
    ∀ c : Nat, c + sizes.sum < 2 ^ 32 →
    writeAddrs (runCont ⟨true, true, c⟩ sizes).2
      = (List.range sizes.length).map (fun n => c + (sizes.take n).sum) := by
  induction sizes with
  | nil => intro c h; rfl
  | cons sz rest ih =>
    intro c h
    have hsum : (sz :: rest).sum = sz + rest.sum := List.sum_cons
    have hlt : (c + sz) % 4294967296 = c + sz := Nat.mod_eq_of_lt (by omega)
    have step : (runCont ⟨true, true, c⟩ (sz :: rest)).2
        = [HwEvent.unlock, HwEvent.writeCall c sz true, HwEvent.lock]
          ++ (runCont ⟨true, true, c + sz⟩ rest).2 := by
      simp [runCont, write_continously, write, hlt]
    rw [step, writeAddrs_append]
    have ih2 := ih (c + sz) (by omega)
    simp only [List.length_cons]
    rw [List.range_succ_eq_map, List.map_cons, List.map_map]
    simp only [writeAddrs, List.take_zero, List.sum_nil, Nat.add_zero, List.nil_append,
      List.cons_append]
    rw [ih2]
    refine congrArg (fun l => c :: l) (List.map_congr_left ?_)
    intro n hn
    simp [List.take_succ_cons, Nat.add_assoc, Function.comp]

theorem runCont_fresh_addrs_eq (sizes : List Nat) :
    writeAddrs (runCont (freshMgr true) sizes).2
      = writeAddrs (runCont ⟨true, true, START_ADDRESS⟩ sizes).2 := by
  cases sizes with
  | nil => rfl
  | cons sz rest =>
    simp [runCont, write_continously, erase_app, write, freshMgr, writeAddrs_append, writeAddrs]

/-- C2: the cursor of a fresh manager starts at `START_ADDRESS`; for a
sequence of `write_continously` calls whose erase and capability writes
all succeed (and whose addresses fit in the 32-bit cursor), the address
handed to the n-th capability write is `START_ADDRESS` plus the sum of
the first n-1 sizes; and a failing `write_continously` call leaves the
cursor unchanged. -/
theorem C2_write_cursor_sequencing (sizes : List Nat)
    (h : START_ADDRESS + sizes.sum < 2 ^ 32) :
    (freshMgr true).m_write_pointer = START_ADDRESS
    ∧ writeAddrs (runCont (freshMgr true) sizes).2
        = (List.range sizes.length).map (fun n => START_ADDRESS + (sizes.take n).sum)
    ∧ ∀ (s : MgrState) (sz : Nat) (e w : Bool),
        (write_continously s sz e w).1 = false →
        (write_continously s sz e w).2.1.m_write_pointer = s.m_write_pointer := by
  refine ⟨rfl, ?_, fun s sz e w hf => wc_fail_cursor_const s sz e w hf⟩
  rw [runCont_fresh_addrs_eq]
  exact runCont_erased_addrs sizes START_ADDRESS h

theorem C2_write_cursor_sequencing_witness :
    writeAddrs (runCont (freshMgr true) [4, 8, 4]).2
      = (List.range ([4, 8, 4] : List Nat).length).map
          (fun n => START_ADDRESS + (([4, 8, 4] : List Nat).take n).sum) :=
  (C2_write_cursor_sequencing [4, 8, 4] (by decide)).2.1

/-- C4: `calculate_crc` depends only on the bytes in
`[START_ADDRESS, END_ADDRESS - METADATA_SIZE)`: two flash states that
agree on every byte of that window (and may differ arbitrarily
elsewhere, in particular in the trailing `METADATA_SIZE` bytes) yield
identical results. -/
theorem C4_crc_metadata_noninterference (s : MgrState) (mem1 mem2 : Nat → Nat)
    (h : ∀ a, START_ADDRESS ≤ a → a < END_ADDRESS - METADATA_SIZE → mem1 a = mem2 a) :
    calculate_crc s mem1 = calculate_crc s mem2 := by
  have hmap : (List.range crcLen).map (fun i => mem1 (START_ADDRESS + i))
      = (List.range crcLen).map (fun i => mem2 (START_ADDRESS + i)) := by
    refine List.map_congr_left ?_
    intro i hi
    have hi2 : i < crcLen := List.mem_range.mp hi
    refine h (START_ADDRESS + i) (Nat.le_add_right _ _) ?_
    simp [START_ADDRESS, END_ADDRESS, METADATA_SIZE, crcLen] at hi2 ⊢
    omega
  unfold calculate_crc
  rw [hmap]

theorem C4_crc_metadata_noninterference_witness :
    calculate_crc (freshMgr true) memZero = calculate_crc (freshMgr true) memTail :=
  C4_crc_metadata_noninterference (freshMgr true) memZero memTail (by
    intro a h1 h2
    have hn : ¬ (END_ADDRESS - METADATA_SIZE ≤ a) := Nat.not_le.mpr h2
    simp [memZero, memTail, hn])

theorem eraseCount_append (t1 t2 : List HwEvent) :
    eraseCount (t1 ++ t2) = eraseCount t1 + eraseCount t2 := by
  simp [eraseCount, List.countP_append]

theorem eraseSuccCount_append (t1 t2 : List HwEvent) :
    eraseSuccCount (t1 ++ t2) = eraseSuccCount t1 + eraseSuccCount t2 := by
  simp [eraseSuccCount, List.countP_append]

theorem eraseSuccCount_le (tr : List HwEvent) : eraseSuccCount tr ≤ eraseCount tr := by
  refine List.countP_mono_left ?_
  intro ev hev hp
  cases ev <;> simp_all [isErase, isEraseSucc]

theorem nEAS_append (t1 t2 : List HwEvent) (h1 : noEraseAfterSuccess t1 = true)
    (h2 : noEraseAfterSuccess t2 = true)
    (h3 : 1 ≤ eraseSuccCount t1 → eraseCount t2 = 0) :
    noEraseAfterSuccess (t1 ++ t2) = true := by
  induction t1 with
  | nil => simpa using h2
  | cons ev rest ih =>
    cases ev with
    | eraseCall b =>
      cases b with
      | true =>
        have hrest : eraseCount rest = 0 := by
          simpa [noEraseAfterSuccess] using h1
        have ht2 : eraseCount t2 = 0 := h3 (by simp [eraseSuccCount, List.countP_cons, isEraseSucc])
        simp [noEraseAfterSuccess, eraseCount_append, hrest, ht2]
      | false =>
        refine ih ?_ ?_
        · simpa [noEraseAfterSuccess] using h1
        · intro hs
          exact h3 (by simpa [eraseSuccCount, List.countP_cons, isEraseSucc] using hs)
    | unlock =>
      refine ih (by simpa [noEraseAfterSuccess] using h1) ?_
      intro hs
      exact h3 (by simpa [eraseSuccCount, List.countP_cons, isEraseSucc] using hs)
    | lock =>
      refine ih (by simpa [noEraseAfterSuccess] using h1) ?_
      intro hs
      exact h3 (by simpa [eraseSuccCount, List.countP_cons, isEraseSucc] using hs)
    | writeCall a sz r =>
      refine ih (by simpa [noEraseAfterSuccess] using h1) ?_
      intro hs
      exact h3 (by simpa [eraseSuccCount, List.countP_cons, isEraseSucc] using hs)
    | deinitPeripherals =>
      refine ih (by simpa [noEraseAfterSuccess] using h1) ?_
      intro hs
      exact h3 (by simpa [eraseSuccCount, List.countP_cons, isEraseSucc] using hs)
    | deinitSystick =>
      refine ih (by simpa [noEraseAfterSuccess] using h1) ?_
      intro hs
      exact h3 (by simpa [eraseSuccCount, List.countP_cons, isEraseSucc] using hs)
    | sysJump entry =>
      refine ih (by simpa [noEraseAfterSuccess] using h1) ?_
      intro hs
      exact h3 (by simpa [eraseSuccCount, List.countP_cons, isEraseSucc] using hs)

theorem execCmd_flag_mono (s : MgrState) (c : Cmd) (h : s.m_was_erased = true) :
    (execCmd s c).2.1.m_was_erased = true ∧ eraseCount (execCmd s c).2.2 = 0 := by
  rcases c with ⟨a, sz, e, w⟩ | ⟨sz, e, w⟩ <;>
    by_cases h1 : s.m_operations <;> cases w <;>
    simp [execCmd, write, write_continously, erase_app, h1, h,
      eraseCount, List.countP_cons, isErase]

theorem execCmd_succ (s : MgrState) (c : Cmd) :
    eraseSuccCount (execCmd s c).2.2 ≤ 1
    ∧ (1 ≤ eraseSuccCount (execCmd s c).2.2 → (execCmd s c).2.1.m_was_erased = true)
    ∧ noEraseAfterSuccess (execCmd s c).2.2 = true := by
  rcases c with ⟨a, sz, e, w⟩ | ⟨sz, e, w⟩ <;>
    by_cases h1 : s.m_operations <;> by_cases h2 : s.m_was_erased <;>
    cases e <;> cases w <;>
    simp [execCmd, write, write_continously, erase_app, h1, h2, noEraseAfterSuccess,
      eraseSuccCount, eraseCount, List.countP_cons, isEraseSucc, isErase]

theorem runCmds_flag_mono (cmds : List Cmd) :
    ∀ s : MgrState, s.m_was_erased = true →
    eraseCount (runCmds s cmds).2 = 0 ∧ (runCmds s cmds).1.m_was_erased = true := by
  induction cmds with
  | nil => intro s h; exact ⟨rfl, h⟩
  | cons c rest ih =>
    intro s h
    have h1 := execCmd_flag_mono s c h
    have h2 := ih (execCmd s c).2.1 h1.1
    refine ⟨?_, h2.2⟩
    show eraseCount ((execCmd s c).2.2 ++ (runCmds (execCmd s c).2.1 rest).2) = 0
    rw [eraseCount_append, h1.2, h2.1]

theorem runCmds_succ_le (cmds : List Cmd) :
    ∀ s : MgrState, eraseSuccCount (runCmds s cmds).2 ≤ 1
      ∧ (1 ≤ eraseSuccCount (runCmds s cmds).2 → (runCmds s cmds).1.m_was_erased = true)
      ∧ noEraseAfterSuccess (runCmds s cmds).2 = true := by
  induction cmds with
  | nil => intro s; refine ⟨by simp [runCmds, eraseSuccCount], by simp [runCmds, eraseSuccCount], rfl⟩
  | cons c rest ih =>
    intro s
    have hstep := execCmd_succ s c
    have hrest := ih (execCmd s c).2.1
    have hsplit : (runCmds s (c :: rest)).2
        = (execCmd s c).2.2 ++ (runCmds (execCmd s c).2.1 rest).2 := rfl
    by_cases hz : eraseSuccCount (execCmd s c).2.2 = 0
    · refine ⟨?_, ?_, ?_⟩
      · rw [hsplit, eraseSuccCount_append, hz]
        simpa using hrest.1
      · intro hone
        refine hrest.2.1 ?_
        rw [hsplit, eraseSuccCount_append, hz] at hone
        simpa using hone
      · rw [hsplit]
        refine nEAS_append _ _ hstep.2.2 hrest.2.2 ?_
        intro hs; omega
    · have h1 : eraseSuccCount (execCmd s c).2.2 = 1 := by
        have := hstep.1; omega
      have hflag : (execCmd s c).2.1.m_was_erased = true := hstep.2.1 (by omega)
      have hmono := runCmds_flag_mono rest (execCmd s c).2.1 hflag
      have hz2 : eraseSuccCount (runCmds (execCmd s c).2.1 rest).2 = 0 := by
        have := eraseSuccCount_le (runCmds (execCmd s c).2.1 rest).2
        omega
      refine ⟨?_, ?_, ?_⟩
      · rw [hsplit, eraseSuccCount_append, h1, hz2]
      · intro hone
        exact hmono.2
      · rw [hsplit]
        refine nEAS_append _ _ hstep.2.2 hrest.2.2 ?_
        intro hs
        exact hmono.1

/-- C8 amended: over any sequence of `write` and `write_continously`
calls, the automatic erase succeeds at most once; from any state whose
erase flag is set no erase is ever invoked again; a successful erase
leaves the flag set; and in every produced trace no erase invocation of
any kind follows a successful one.  (Failed erase attempts, however, may
repeat, one per failing call, until one succeeds.) -/
theorem C8_erase_success_at_most_once (s : MgrState) (cmds : List Cmd) :
    eraseSuccCount (runCmds s cmds).2 ≤ 1
    ∧ (s.m_was_erased = true → eraseCount (runCmds s cmds).2 = 0)
    ∧ (1 ≤ eraseSuccCount (runCmds s cmds).2 → (runCmds s cmds).1.m_was_erased = true)
    ∧ noEraseAfterSuccess (runCmds s cmds).2 = true :=
  ⟨(runCmds_succ_le cmds s).1, fun h => (runCmds_flag_mono cmds s h).1,
    (runCmds_succ_le cmds s).2.1, (runCmds_succ_le cmds s).2.2⟩

theorem C8_erase_success_at_most_once_witness :
    eraseCount (runCmds ⟨true, true, START_ADDRESS⟩ [Cmd.wr 0 4 true true]).2 = 0 :=
  (C8_erase_success_at_most_once ⟨true, true, START_ADDRESS⟩ [Cmd.wr 0 4 true true]).2.1 rfl

theorem readLoopAux_diverges (size : Nat) (mem : Nat → Nat) (address : Nat)
    (hs : 65536 ≤ size / 4) :
    ∀ fuel i acc, i < 65536 → readLoopAux size mem address fuel i acc = none := by
  intro fuel
  induction fuel with
  | zero => intro i acc _; rfl
  | succ n ih =>
    intro i acc hi
    have hlt : i < size / 4 := lt_of_lt_of_le hi hs
    simp only [readLoopAux, hlt, if_true]
    exact ih _ _ (Nat.mod_lt _ (by norm_num))

theorem readLoopAux_completes (size : Nat) (mem : Nat → Nat) (address : Nat)
    (hs : size / 4 ≤ 65535) :
    ∀ (n i : Nat) (acc : List Nat), i + n = size / 4 →
      readLoopAux size mem address (n + 1) i acc
        = some (acc ++ (List.range n).map (fun j => word32 mem (address + 4 * (i + j)))) := by
  intro n
  induction n with
  | zero =>
    intro i acc hi
    have hge : ¬ (i < size / 4) := by omega
    simp [readLoopAux, hge]
  | succ m ih =>
    intro i acc hi
    have hlt : i < size / 4 := by omega
    have hmod : (i + 1) % 65536 = i + 1 := Nat.mod_eq_of_lt (by omega)
    have hstep : readLoopAux size mem address (m + 1 + 1) i acc
        = if i < size / 4 then
            readLoopAux size mem address (m + 1) ((i + 1) % 65536)
              (acc ++ [word32 mem (address + 4 * i)])
          else some acc := rfl
    rw [hstep, if_pos hlt, hmod, ih (i + 1) (acc ++ [word32 mem (address + 4 * i)]) (by omega)]
    congr 1
    rw [List.range_succ_eq_map, List.map_cons, List.map_map, List.append_assoc]
    congr 1
    have hhd : address + 4 * (i + 0) = address + 4 * i := by omega
    rw [hhd]
    refine congrArg (fun l => word32 mem (address + 4 * i) :: l) (List.map_congr_left ?_)
    intro j hj
    show word32 mem (address + 4 * (i + 1 + j)) = word32 mem (address + 4 * (i + (j + 1)))
    congr 1
    omega

theorem read_diverges_of_large (s : MgrState) (mem : Nat → Nat) (address size : Nat)
    (h : s.m_operations = true) (hs : 65536 ≤ size / 4) (fuel : Nat) :
    read s address size mem fuel = none := by
  simp [read, h, readLoopAux_diverges size mem address hs fuel 0 [] (by norm_num)]

theorem read_completes_of_small (s : MgrState) (mem : Nat → Nat) (address size : Nat)
    (h : s.m_operations = true) (hs : size / 4 ≤ 65535) :
    read s address size mem (size / 4 + 1)
      = some (true, [HwEvent.unlock, HwEvent.lock],
          (List.range (size / 4)).map (fun i => word32 mem (address + 4 * i))) := by
  have hc := readLoopAux_completes size mem address hs (size / 4) 0 [] (by omega)
  simp only [List.nil_append, Nat.zero_add] at hc
  simp [read, h, hc]

/-- C10: the copy loop of `read` runs a 16-bit counter against
`size / 4`: whenever `size / 4 ≥ 65536` (that is, size at least 262144
bytes) the counter wraps and `read` never returns, for any fuel;
whenever `size / 4 ≤ 65535` the loop exits after exactly `size / 4`
iterations, so `read` returns. -/
theorem C10_read_loop_termination (s : MgrState) (mem : Nat → Nat) (address size : Nat)
    (h : s.m_operations = true) :
    (65536 ≤ size / 4 → ∀ fuel, read s address size mem fuel = none)
    ∧ (size / 4 ≤ 65535 → ∃ r, read s address size mem (size / 4 + 1) = some r) :=
  ⟨fun hs fuel => read_diverges_of_large s mem address size h hs fuel,
    fun hs => ⟨_, read_completes_of_small s mem address size h hs⟩⟩

theorem C10_read_loop_termination_witness :
    ∃ r, read (freshMgr true) 0 4 memZero (4 / 4 + 1) = some r :=
  (C10_read_loop_termination (freshMgr true) memZero 0 4 rfl).2 (by norm_num)

/-- C9 counterexample: at size 262144 (so `size / 4 = 65536`), with a
capability bound, `read` does not return for any amount of fuel — the
16-bit loop counter wraps before reaching `size / 4` — refuting the
claim that `read` returns true and copies `4 * (size / 4)` bytes for
every size. -/
theorem C9_cex_read_large_never_returns : read_never_returns 262144 :=
  fun fuel =>
    read_diverges_of_large (freshMgr true) (fun _ => 0) START_ADDRESS 262144 rfl
      (by norm_num) fuel

/-- C9 amended: with a capability bound and `size / 4 ≤ 65535`, `read`
returns true and copies exactly `size / 4` 32-bit words (hence
`4 * (size / 4)` bytes, silently dropping the trailing `size mod 4`
bytes) from `address`, bracketed by one unlock and one lock, with no
bounds check of address or size against the application region. -/
theorem C9_read_word_copy (s : MgrState) (mem : Nat → Nat) (address size : Nat)
    (h : s.m_operations = true) (hs : size / 4 ≤ 65535) :
    read s address size mem (size / 4 + 1)
      = some (true, [HwEvent.unlock, HwEvent.lock],
          (List.range (size / 4)).map (fun i => word32 mem (address + 4 * i)))
    ∧ ((List.range (size / 4)).map (fun i => word32 mem (address + 4 * i))).length
        = size / 4 := by
  refine ⟨read_completes_of_small s mem address size h hs, by simp⟩

theorem C9_read_word_copy_witness :
    read (freshMgr true) 0 8 memZero (8 / 4 + 1)
      = some (true, [HwEvent.unlock, HwEvent.lock],
          (List.range (8 / 4)).map (fun i => word32 memZero (0 + 4 * i)))
    ∧ ((List.range (8 / 4)).map (fun i => word32 memZero (0 + 4 * i))).length = 8 / 4 :=
  C9_read_word_copy (freshMgr true) memZero 0 8 rfl (by norm_num)

end STM32Boot
